import Mathlib

/-!
Verification of the schema-compatibility shim layer (`cli/cli.go`).

The development shallowly embeds the Go source:

* `dsMatchAt` / `findDs` — the regexp `(?s)datasource\s+\w+\s+\x7b([^\x7d]+)\x7d`
  applied with leftmost-match semantics (`FindStringSubmatchIndex`).  Since the
  character classes of adjacent quantified atoms are disjoint, greedy matching
  at a fixed start position is deterministic, and the embedding computes it
  directly with `takeWhile`/`dropWhile` runs.
* `hasUrl` — the regexp `\burl\s*=` applied with `MatchString` semantics
  (a match anywhere in the block body).
* `evaluate` — the pure patching step of `shimSchemaCompatibility`: find the
  first datasource block, return `none` (unchanged) when the body already has
  a `url` property, otherwise insert the fixed line at the start of the body.
* `findSchemaPath`, `rewriteArgs` — the argument scanning/rewriting loops.
* `composeEnv` — the child-environment construction in `Run`.
* `shimSchemaCompatibility` / `Run` — the file-system–touching control flow,
  over an explicit world (`String → Option (List Char)`) with the fallible
  steps (stat, read, temp creation, temp write, fetch, exec) as parameters.
-/

namespace PrismaCli

/-- Go regexp `\s` (RE2): exactly the characters tab, newline, form feed,
carriage return and space. -/
def isSpaceC (c : Char) : Bool :=
  c == ' ' || c == '\t' || c == '\n' || c == '\x0c' || c == '\r'

/-- Go regexp `\w` (RE2): `[0-9A-Za-z_]`. -/
def isWordC (c : Char) : Bool :=
  c.isAlpha || c.isDigit || c == '_'

/-- The literal keyword of the datasource regexp. -/
def kw : List Char := "datasource".data

/-- One greedy `X+` step of the regexp engine: requires at least one character
satisfying `p` and consumes the maximal run, returning the run and the rest. -/
def req1 (p : Char → Bool) : List Char → Option (List Char × List Char)
  | [] => none
  | c :: cs => if p c then some (c :: cs.takeWhile p, cs.dropWhile p) else none

/-- One literal-character step of the regexp engine. -/
def expectChar (c : Char) : List Char → Option (List Char)
  | [] => none
  | d :: ds => if d = c then some ds else none

/-- Matching `datasource\s+\w+\s+\x7b([^\x7d]+)\x7d` anchored at the head of
`l`.  Returns (matched header text up to and including the opening brace,
capture-group body, text after the closing brace). -/
def dsMatchAt (l : List Char) : Option (List Char × List Char × List Char) :=
  if kw.isPrefixOf l then
    (req1 isSpaceC (l.drop 10)).bind fun p1 =>
    (req1 isWordC p1.2).bind fun p2 =>
    (req1 isSpaceC p2.2).bind fun p3 =>
    (expectChar '{' p3.2).bind fun r4 =>
    (req1 (fun c => !(c == '}')) r4).bind fun p5 =>
    (expectChar '}' p5.2).map fun r6 =>
      (kw ++ p1.1 ++ p2.1 ++ p3.1 ++ ['{'], p5.1, r6)
  else none

/-- Leftmost match of the datasource regexp (`FindStringSubmatchIndex`):
returns (text before the match, header, body, text after the closing brace). -/
def findDs : List Char → Option (List Char × List Char × List Char × List Char)
  | [] => none
  | c :: cs =>
    match dsMatchAt (c :: cs) with
    | some (h, b, r) => some ([], h, b, r)
    | none =>
      match findDs cs with
      | some (p, h, b, r) => some (c :: p, h, b, r)
      | none => none

/-- `\b` before a word character: satisfied at the start of the text or after
a non-word character. -/
def boundaryOK : Option Char → Bool
  | none => true
  | some c => !(isWordC c)

/-- Matching `url\s*=` anchored at the head of `l`. -/
def urlAt (l : List Char) : Bool :=
  match l with
  | 'u' :: 'r' :: 'l' :: rest =>
    match rest.dropWhile isSpaceC with
    | '=' :: _ => true
    | _ => false
  | _ => false

/-- Scanning for `\burl\s*=` anywhere, threading the previous character for
the word-boundary test. -/
def hasUrlAux : Option Char → List Char → Bool
  | _, [] => false
  | prev, c :: cs => (boundaryOK prev && urlAt (c :: cs)) || hasUrlAux (some c) cs

/-- `urlRegex.MatchString blockContent` for `urlRegex = \burl\s*=`. -/
def hasUrl (b : List Char) : Bool := hasUrlAux none b

/-- The fixed text inserted at the start of the block body. -/
def injectedLine : List Char := "\n  url = env(\"DB_URL\")".data

/-- The pure patching step of `shimSchemaCompatibility`: `none` means the
document is left unchanged, `some out` means the invocation will use the
patched document `out`. -/
def evaluate (doc : List Char) : Option (List Char) :=
  match findDs doc with
  | none => none
  | some (p, h, b, r) =>
    if hasUrl b then none
    else some (p ++ h ++ (injectedLine ++ (b ++ '}' :: r)))

/-- The head of `l` (if any) does not satisfy `p`. -/
def headFails (p : Char → Bool) : List Char → Prop
  | [] => True
  | c :: _ => p c = false

/-- Well-formedness of the four variable parts of a match of
`datasource\s+\w+\s+\x7b([^\x7d]+)\x7d`. -/
def Shape (s1 w s2 b : List Char) : Prop :=
  s1 ≠ [] ∧ (∀ c ∈ s1, isSpaceC c = true) ∧
  w ≠ [] ∧ (∀ c ∈ w, isWordC c = true) ∧
  s2 ≠ [] ∧ (∀ c ∈ s2, isSpaceC c = true) ∧
  b ≠ [] ∧ (∀ c ∈ b, c ≠ '}')

/-- `l` is matched (at its head, in full up to a trailing remainder) by the
datasource regexp. -/
def Matches (l : List Char) : Prop :=
  ∃ s1 w s2 b r, Shape s1 w s2 b ∧
    l = kw ++ (s1 ++ (w ++ (s2 ++ ('{' :: (b ++ '}' :: r)))))

/-- The `findSchemaPath` loop: first `--schema` token with a following value,
or first `--schema=<value>` token. -/
def findSchemaPath : List String → Option String
  | [] => none
  | a :: rest =>
    match rest with
    | [] => if "--schema=".data.isPrefixOf a.data then some (String.mk (a.data.drop 9)) else none
    | b :: rest' =>
      if a = "--schema" then some b
      else if "--schema=".data.isPrefixOf a.data then some (String.mk (a.data.drop 9))
      else findSchemaPath (b :: rest')

/-- The argument-rewriting loop: replace the first schema flag's value with
`t` in place, or append `--schema t` when no flag is found. -/
def rewriteArgs : List String → String → List String
  | [], t => ["--schema", t]
  | a :: rest, t =>
    match rest with
    | [] =>
      if "--schema=".data.isPrefixOf a.data then [("--schema=" ++ t)]
      else [a, "--schema", t]
    | v :: r =>
      if a = "--schema" then a :: t :: r
      else if "--schema=".data.isPrefixOf a.data then ("--schema=" ++ t) :: v :: r
      else a :: rewriteArgs (v :: r) t

/-- One auxiliary engine binary: the environment variable consulted for an
override, and the engine's name used in the computed binary filename. -/
structure Engine where
  name : String
  env : String

/-- The per-engine value: the ambient value verbatim when set and non-empty,
otherwise the path `dir/version/prisma-<name>-<binaryName>` (the `path.Join`
of the source, modelled as `/`-separated concatenation). -/
def engineValue (getEnv : String → String) (dir version binaryName : String)
    (e : Engine) : String :=
  if getEnv e.env ≠ "" then getEnv e.env
  else dir ++ "/" ++ version ++ "/" ++ ("prisma-" ++ e.name ++ "-" ++ binaryName)

/-- The environment-construction loop of `Run`: the ambient environment, the
two fixed flags, then one appended entry per engine. -/
def composeEnv (environ : List String) (getEnv : String → String)
    (engines : List Engine) (dir version binaryName : String) : List String :=
  engines.foldl
    (fun acc e => acc ++ [e.env ++ "=" ++ engineValue getEnv dir version binaryName e])
    ((environ ++ ["PRISMA_HIDE_UPDATE_MESSAGE=true"]) ++ ["PRISMA_CLI_QUERY_ENGINE_TYPE=binary"])

/-- Point update of the world: file `n` now has contents `c` (`none`
represents removal/absence). -/
def setFile (w : String → Option (List Char)) (n : String) (c : Option (List Char)) :
    String → Option (List Char) :=
  fun m => if m = n then c else w m

/-- Schema location: the flag-provided path, or the first of the two default
locations that passes `os.Stat`. -/
def locateSchema (statOk : String → Bool) (args : List String) : Option String :=
  match findSchemaPath args with
  | some p => some p
  | none =>
    if statOk "./schema.prisma" then some "./schema.prisma"
    else if statOk "./prisma/schema.prisma" then some "./prisma/schema.prisma"
    else none

/-- The read-and-evaluate part of `shimSchemaCompatibility`: `some newDoc`
iff a schema was located, read and found to need the patch. -/
def shimDecide (w : String → Option (List Char)) (statOk : String → Bool)
    (args : List String) : Option (List Char) :=
  match locateSchema statOk args with
  | none => none
  | some p =>
    match w p with
    | none => none
    | some content => evaluate content

/-- `shimSchemaCompatibility`: returns the new world, the (possibly
rewritten) argument list, the registered cleanup target, and whether an
error is returned. -/
def shimSchemaCompatibility (w : String → Option (List Char)) (statOk : String → Bool)
    (args : List String) (tmpName : String) (createOk writeOk : Bool) :
    (String → Option (List Char)) × List String × Option String × Bool :=
  match shimDecide w statOk args with
  | none => (w, args, none, false)
  | some newDoc =>
    if createOk then
      if writeOk then
        (setFile w tmpName (some newDoc), rewriteArgs args tmpName, some tmpName, false)
      else
        (setFile w tmpName none, args, none, true)
    else (w, args, none, true)

/-- `Run`: fetch, shim (with deferred cleanup), execute.  Returns the final
world and whether an error is returned. -/
def Run (w : String → Option (List Char)) (statOk : String → Bool)
    (args : List String) (tmpName : String)
    (createOk writeOk fetchOk execOk : Bool) :
    (String → Option (List Char)) × Bool :=
  if fetchOk then
    match shimSchemaCompatibility w statOk args tmpName createOk writeOk with
    | (w1, _, cl, err) =>
      if err then (w1, true)
      else
        match cl with
        | some n => (setFile w1 n none, !execOk)
        | none => (w1, !execOk)
  else (w, true)

/-- The world holding one schema file `a.prisma` that needs the patch. -/
def sampleWorld : String → Option (List Char) :=
  fun s =>
    if s = "a.prisma" then
      some "datasource db \x7b\n  provider = \"postgresql\"\n\x7d\n".data
    else none

/-! ### Character-class facts -/

theorem isSpaceC_cases {c : Char} (h : isSpaceC c = true) :
    c = ' ' ∨ c = '\t' ∨ c = '\n' ∨ c = '\x0c' ∨ c = '\r' := by
  simp [isSpaceC] at h
  tauto

theorem word_not_space {c : Char} (h : isWordC c = true) : isSpaceC c = false := by
  cases hs : isSpaceC c with
  | false => rfl
  | true => rcases isSpaceC_cases hs with rfl | rfl | rfl | rfl | rfl <;>
      exact absurd h (by decide)

theorem space_not_word {c : Char} (h : isSpaceC c = true) : isWordC c = false := by
  rcases isSpaceC_cases h with rfl | rfl | rfl | rfl | rfl <;> decide

theorem space_ne_lbrace {c : Char} (h : isSpaceC c = true) : c ≠ '{' := by
  rcases isSpaceC_cases h with rfl | rfl | rfl | rfl | rfl <;> decide

theorem word_ne_lbrace {c : Char} (h : isWordC c = true) : c ≠ '{' := by
  intro he
  subst he
  exact absurd h (by decide)

theorem kw_ne_lbrace : ∀ c ∈ kw, c ≠ '{' := by decide

/-! ### takeWhile / dropWhile / req1 facts -/

theorem takeWhile_append_all {p : Char → Bool} {a : List Char} (b : List Char)
    (h : ∀ c ∈ a, p c = true) : (a ++ b).takeWhile p = a ++ b.takeWhile p := by
  induction a with
  | nil => simp
  | cons c a ih =>
    have hc : p c = true := h c (by simp)
    simp only [List.cons_append, List.takeWhile_cons_of_pos hc]
    rw [ih fun x hx => h x (by simp [hx])]

theorem dropWhile_append_all {p : Char → Bool} {a : List Char} (b : List Char)
    (h : ∀ c ∈ a, p c = true) : (a ++ b).dropWhile p = b.dropWhile p := by
  induction a with
  | nil => simp
  | cons c a ih =>
    have hc : p c = true := h c (by simp)
    simp only [List.cons_append, List.dropWhile_cons_of_pos hc]
    exact ih fun x hx => h x (by simp [hx])

theorem takeWhile_nil_of_headFails {p : Char → Bool} {b : List Char}
    (h : headFails p b) : b.takeWhile p = [] := by
  cases b with
  | nil => rfl
  | cons c cs => exact List.takeWhile_cons_of_neg (by simp [headFails] at h; simp [h])

theorem dropWhile_self_of_headFails {p : Char → Bool} {b : List Char}
    (h : headFails p b) : b.dropWhile p = b := by
  cases b with
  | nil => rfl
  | cons c cs => exact List.dropWhile_cons_of_neg (by simp [headFails] at h; simp [h])

theorem dropWhile_headFails (p : Char → Bool) (l : List Char) :
    headFails p (l.dropWhile p) := by
  induction l with
  | nil => trivial
  | cons c cs ih =>
    cases hc : p c with
    | true => rw [List.dropWhile_cons_of_pos hc]; exact ih
    | false => rw [List.dropWhile_cons_of_neg (by simp [hc])]; exact hc

theorem mem_takeWhile {p : Char → Bool} {l : List Char} {c : Char}
    (h : c ∈ l.takeWhile p) : p c = true := by
  induction l with
  | nil => simp at h
  | cons a as ih =>
    cases ha : p a with
    | true =>
      rw [List.takeWhile_cons_of_pos ha] at h
      rcases List.mem_cons.mp h with rfl | h'
      · exact ha
      · exact ih h'
    | false =>
      rw [List.takeWhile_cons_of_neg (by simp [ha])] at h
      simp at h

theorem req1_some {p : Char → Bool} {l a s : List Char}
    (h : req1 p l = some (a, s)) :
    l = a ++ s ∧ a ≠ [] ∧ (∀ c ∈ a, p c = true) ∧ headFails p s := by
  cases l with
  | nil => simp [req1] at h
  | cons c cs =>
    by_cases hc : p c = true
    · simp only [req1, hc, if_true, Option.some.injEq, Prod.mk.injEq] at h
      obtain ⟨ha, hs⟩ := h
      subst ha
      subst hs
      refine ⟨?_, ?_, ?_, ?_⟩
      · simp [List.takeWhile_append_dropWhile]
      · simp
      · intro x hx
        rcases List.mem_cons.mp hx with rfl | hx'
        · exact hc
        · exact mem_takeWhile hx'
      · exact dropWhile_headFails p cs
    · simp [req1, hc] at h

theorem req1_eq {p : Char → Bool} {a : List Char} (s : List Char)
    (ha : a ≠ []) (hall : ∀ c ∈ a, p c = true) (hs : headFails p s) :
    req1 p (a ++ s) = some (a, s) := by
  cases a with
  | nil => exact absurd rfl ha
  | cons c a' =>
    have hc : p c = true := hall c (by simp)
    have hall' : ∀ x ∈ a', p x = true := fun x hx => hall x (by simp [hx])
    simp only [List.cons_append, req1, hc, if_pos]
    rw [takeWhile_append_all s hall', takeWhile_nil_of_headFails hs,
      dropWhile_append_all s hall', dropWhile_self_of_headFails hs]
    simp

theorem isPrefixOf_iff_ex {a l : List Char} :
    a.isPrefixOf l = true ↔ ∃ t, l = a ++ t := by
  induction a generalizing l with
  | nil => simp [List.isPrefixOf]
  | cons c a ih =>
    cases l with
    | nil => simp [List.isPrefixOf]
    | cons d l' =>
      simp only [List.isPrefixOf, Bool.and_eq_true, beq_iff_eq, ih,
        List.cons_append, List.cons.injEq]
      constructor
      · rintro ⟨rfl, t, rfl⟩; exact ⟨t, rfl, rfl⟩
      · rintro ⟨t, rfl, rfl⟩; exact ⟨rfl, t, rfl⟩

theorem expectChar_some {c : Char} {l t : List Char}
    (h : expectChar c l = some t) : l = c :: t := by
  cases l with
  | nil => simp [expectChar] at h
  | cons d ds =>
    simp only [expectChar] at h
    split at h
    · rename_i hd
      injection h with h'
      subst h'
      rw [hd]
    · exact absurd h (by simp)

theorem expectChar_cons (c : Char) (t : List Char) :
    expectChar c (c :: t) = some t := by
  simp [expectChar]

/-! ### Structural characterisation of a datasource-regexp match -/

theorem dsMatchAt_sound {l h b r : List Char}
    (hm : dsMatchAt l = some (h, b, r)) :
    ∃ s1 w s2, Shape s1 w s2 b ∧ h = kw ++ s1 ++ w ++ s2 ++ ['{'] ∧
      l = kw ++ (s1 ++ (w ++ (s2 ++ ('{' :: (b ++ '}' :: r))))) := by
  unfold dsMatchAt at hm
  by_cases hp : kw.isPrefixOf l = true
  case neg => simp [hp] at hm
  case pos =>
    rw [if_pos hp] at hm
    obtain ⟨t, rfl⟩ := isPrefixOf_iff_ex.mp hp
    have hdrop : (kw ++ t).drop 10 = t := by
      have hlen : kw.length = 10 := by decide
      rw [← hlen, List.drop_left]
    rw [hdrop] at hm
    simp only [Option.bind_eq_some, Option.map_eq_some'] at hm
    obtain ⟨⟨s1, r1⟩, h1, ⟨w, r2⟩, h2, ⟨s2, r3⟩, h3, r4, h4, ⟨b', r5⟩, h5, r6, h6, hout⟩ := hm
    dsimp only at h2 h3 h4 h6 hout
    obtain ⟨ht, hs1ne, hs1all, _⟩ := req1_some h1
    obtain ⟨hr1, hwne, hwall, _⟩ := req1_some h2
    obtain ⟨hr2, hs2ne, hs2all, _⟩ := req1_some h3
    have hr3 : r3 = '{' :: r4 := expectChar_some h4
    obtain ⟨hr4, hbne, hball, _⟩ := req1_some h5
    have hr5 : r5 = '}' :: r6 := expectChar_some h6
    simp only [Prod.mk.injEq] at hout
    obtain ⟨hh, hb, hr⟩ := hout
    subst hb
    subst hr
    refine ⟨s1, w, s2, ⟨hs1ne, hs1all, hwne, hwall, hs2ne, hs2all, hbne, ?_⟩, ?_, ?_⟩
    · intro c hc
      have := hball c hc
      simpa using this
    · rw [← hh]
    · rw [ht, hr1, hr2, hr3, hr4, hr5]

theorem dsMatchAt_complete {s1 w s2 b : List Char} (r : List Char)
    (hs : Shape s1 w s2 b) :
    dsMatchAt (kw ++ (s1 ++ (w ++ (s2 ++ ('{' :: (b ++ '}' :: r)))))) =
      some (kw ++ s1 ++ w ++ s2 ++ ['{'], b, r) := by
  obtain ⟨hs1ne, hs1all, hwne, hwall, hs2ne, hs2all, hbne, hball⟩ := hs
  have hp : kw.isPrefixOf (kw ++ (s1 ++ (w ++ (s2 ++ ('{' :: (b ++ '}' :: r)))))) = true :=
    isPrefixOf_iff_ex.mpr ⟨_, rfl⟩
  unfold dsMatchAt
  rw [if_pos hp]
  have hdrop : (kw ++ (s1 ++ (w ++ (s2 ++ ('{' :: (b ++ '}' :: r)))))).drop 10 =
      s1 ++ (w ++ (s2 ++ ('{' :: (b ++ '}' :: r)))) := by
    have hlen : kw.length = 10 := by decide
    rw [← hlen, List.drop_left]
  rw [hdrop]
  have h1 : req1 isSpaceC (s1 ++ (w ++ (s2 ++ ('{' :: (b ++ '}' :: r))))) =
      some (s1, w ++ (s2 ++ ('{' :: (b ++ '}' :: r)))) := by
    refine req1_eq _ hs1ne hs1all ?_
    cases w with
    | nil => exact absurd rfl hwne
    | cons c w' => exact word_not_space (hwall c (by simp))
  have h2 : req1 isWordC (w ++ (s2 ++ ('{' :: (b ++ '}' :: r)))) =
      some (w, s2 ++ ('{' :: (b ++ '}' :: r))) := by
    refine req1_eq _ hwne hwall ?_
    cases s2 with
    | nil => exact absurd rfl hs2ne
    | cons c s2' => exact space_not_word (hs2all c (by simp))
  have h3 : req1 isSpaceC (s2 ++ ('{' :: (b ++ '}' :: r))) =
      some (s2, '{' :: (b ++ '}' :: r)) := by
    refine req1_eq _ hs2ne hs2all ?_
    show isSpaceC '{' = false
    decide
  have h5 : req1 (fun c => !(c == '}')) (b ++ '}' :: r) = some (b, '}' :: r) := by
    refine req1_eq _ hbne ?_ ?_
    · intro c hc
      simpa using hball c hc
    · show (!('}' == '}')) = false
      decide
  simp only [h1, h2, h3, h5, expectChar_cons, Option.some_bind, Option.map_some']

/-! ### Splitting a list at the first occurrence of a character -/

theorem split_first {c : Char} :
    ∀ {b a x y : List Char}, a ++ c :: x = b ++ c :: y → c ∉ b →
      (a = b ∧ x = y) ∨ ∃ t, a = b ++ c :: t ∧ y = t ++ c :: x := by
  intro b
  induction b with
  | nil =>
    intro a x y h _
    cases a with
    | nil =>
      left
      refine ⟨rfl, ?_⟩
      simpa using h
    | cons a0 a' =>
      right
      simp only [List.cons_append, List.nil_append, List.cons.injEq] at h
      exact ⟨a', by simp [h.1], h.2.symm⟩
  | cons b0 b' ih =>
    intro a x y h hnm
    have hb0 : b0 ≠ c := fun he => hnm (by simp [he])
    cases a with
    | nil =>
      exfalso
      simp only [List.nil_append, List.cons_append, List.cons.injEq] at h
      exact hb0 h.1.symm
    | cons a0 a' =>
      simp only [List.cons_append, List.cons.injEq] at h
      obtain ⟨rfl, h2⟩ := h
      have hnm' : c ∉ b' := fun hm => hnm (by simp [hm])
      rcases ih h2 hnm' with ⟨rfl, rfl⟩ | ⟨t, ht, hy⟩
      · exact Or.inl ⟨rfl, rfl⟩
      · exact Or.inr ⟨t, by simp [ht], hy⟩

theorem exists_first_split {c : Char} {l : List Char} (h : c ∈ l) :
    ∃ l1 l2, l = l1 ++ c :: l2 ∧ c ∉ l1 := by
  induction l with
  | nil => simp at h
  | cons d ds ih =>
    by_cases hd : d = c
    · exact ⟨[], ds, by simp [hd], by simp⟩
    · have hm : c ∈ ds := by
        rcases List.mem_cons.mp h with he | hm
        · exact absurd he.symm hd
        · exact hm
      obtain ⟨l1, l2, hl, hnot⟩ := ih hm
      refine ⟨d :: l1, l2, by simp [hl], ?_⟩
      intro hc
      rcases List.mem_cons.mp hc with he | hm'
      · exact hd he.symm
      · exact hnot hm'

/-! ### Inserting the url line does not create an earlier match -/

theorem injectedLine_no_rbrace : ∀ c ∈ injectedLine, c ≠ '}' := by decide

theorem matches_shrink (pre0 b r : List Char) (hbne : b ≠ [])
    (hball : ∀ c ∈ b, c ≠ '}')
    (h : Matches (pre0 ++ '{' :: (injectedLine ++ (b ++ '}' :: r)))) :
    Matches (pre0 ++ '{' :: (b ++ '}' :: r)) := by
  obtain ⟨s1, w, s2, b', r', hs, heq⟩ := h
  obtain ⟨hs1ne, hs1all, hwne, hwall, hs2ne, hs2all, hb'ne, hb'all⟩ := hs
  have hnotb' : '}' ∉ b' := fun hm => hb'all '}' hm rfl
  have heq' : pre0 ++ '{' :: (injectedLine ++ (b ++ '}' :: r)) =
      (kw ++ (s1 ++ (w ++ s2))) ++ '{' :: (b' ++ '}' :: r') := by
    rw [heq]
    simp [List.append_assoc]
  have hPnot : '{' ∉ kw ++ (s1 ++ (w ++ s2)) := by
    intro hm
    rcases List.mem_append.mp hm with hm1 | hm2
    · exact kw_ne_lbrace _ hm1 rfl
    rcases List.mem_append.mp hm2 with hm3 | hm4
    · exact space_ne_lbrace (hs1all _ hm3) rfl
    rcases List.mem_append.mp hm4 with hm5 | hm6
    · exact word_ne_lbrace (hwall _ hm5) rfl
    · exact space_ne_lbrace (hs2all _ hm6) rfl
  rcases split_first heq' hPnot with ⟨hpre, hXZ⟩ | ⟨t, hpre, hZ⟩
  · -- the new match's opening brace is the original one
    have hXZ' : (injectedLine ++ b) ++ '}' :: r = b' ++ '}' :: r' := by
      rw [← hXZ]
      simp [List.append_assoc]
    have hnot1 : '}' ∉ injectedLine ++ b := by
      intro hm
      rcases List.mem_append.mp hm with hm1 | hm2
      · exact injectedLine_no_rbrace _ hm1 rfl
      · exact hball _ hm2 rfl
    rcases split_first hXZ' hnotb' with ⟨_, _⟩ | ⟨u, hbu, _⟩
    · exact ⟨s1, w, s2, b, r,
        ⟨hs1ne, hs1all, hwne, hwall, hs2ne, hs2all, hbne, hball⟩,
        by rw [hpre]; simp [List.append_assoc]⟩
    · exact absurd (hbu ▸ List.mem_append_right _ (by simp) : '}' ∈ injectedLine ++ b) hnot1
  · -- the new match's opening brace is strictly before the original one
    by_cases hmem : '}' ∈ t
    · obtain ⟨t1, t2, ht12, ht1not⟩ := exists_first_split hmem
      have hZ' : b' ++ '}' :: r' = t1 ++ '}' :: (t2 ++ '{' :: (injectedLine ++ (b ++ '}' :: r))) := by
        rw [hZ, ht12]
        simp [List.append_assoc]
      rcases split_first hZ' ht1not with ⟨hbt1, _⟩ | ⟨u, hbu, _⟩
      · refine ⟨s1, w, s2, t1, t2 ++ '{' :: (b ++ '}' :: r),
          ⟨hs1ne, hs1all, hwne, hwall, hs2ne, hs2all, ?_, ?_⟩, ?_⟩
        · rw [← hbt1]; exact hb'ne
        · intro c hc he
          exact ht1not (he ▸ hc)
        · rw [hpre, ht12]
          simp [List.append_assoc]
      · exact absurd (hbu ▸ List.mem_append_right _ (by simp) : '}' ∈ b') hnotb'
    · have hZ' : b' ++ '}' :: r' = (t ++ '{' :: (injectedLine ++ b)) ++ '}' :: r := by
        rw [hZ]
        simp [List.append_assoc]
      have hnott : '}' ∉ t ++ '{' :: (injectedLine ++ b) := by
        intro hm
        rcases List.mem_append.mp hm with hm1 | hm2
        · exact hmem hm1
        rcases List.mem_cons.mp hm2 with he | hm3
        · exact absurd he (by decide)
        rcases List.mem_append.mp hm3 with hm4 | hm5
        · exact injectedLine_no_rbrace _ hm4 rfl
        · exact hball _ hm5 rfl
      rcases split_first hZ' hnott with ⟨hbt, _⟩ | ⟨u, hbu, _⟩
      · refine ⟨s1, w, s2, t ++ '{' :: b, r,
          ⟨hs1ne, hs1all, hwne, hwall, hs2ne, hs2all, ?_, ?_⟩, ?_⟩
        · simp
        · intro c hc
          rcases List.mem_append.mp hc with hm1 | hm2
          · exact fun he => hmem (he ▸ hm1)
          rcases List.mem_cons.mp hm2 with he | hm3
          · exact he ▸ (by decide)
          · exact hball _ hm3
        · rw [hpre]
          simp [List.append_assoc]
      · exact absurd (hbu ▸ List.mem_append_right _ (by simp) : '}' ∈ b') hnotb'

/-! ### Leftmost-match semantics of `findDs` -/

theorem findDs_sound :
    ∀ {l p h b r : List Char}, findDs l = some (p, h, b, r) →
      l = p ++ (h ++ (b ++ '}' :: r)) ∧
      dsMatchAt (h ++ (b ++ '}' :: r)) = some (h, b, r) ∧
      ∀ p1 p2, p = p1 ++ p2 → p2 ≠ [] →
        dsMatchAt (p2 ++ (h ++ (b ++ '}' :: r))) = none := by
  intro l
  induction l with
  | nil => intro p h b r hm; simp [findDs] at hm
  | cons c cs ih =>
    intro p h b r hm
    cases hd : dsMatchAt (c :: cs) with
    | some m =>
      obtain ⟨h', b', r'⟩ := m
      rw [findDs, hd] at hm
      simp only [Option.some.injEq, Prod.mk.injEq] at hm
      obtain ⟨rfl, rfl, rfl, rfl⟩ := hm
      obtain ⟨s1, w, s2, _, hh, hl⟩ := dsMatchAt_sound hd
      have hdec : c :: cs = h' ++ (b' ++ '}' :: r') := by
        rw [hl, hh]
        simp [List.append_assoc]
      refine ⟨by simpa using hdec, by rw [← hdec]; exact hd, ?_⟩
      intro p1 p2 hp hne
      exact absurd (List.append_eq_nil.mp hp.symm).2 hne
    | none =>
      cases hf : findDs cs with
      | none => rw [findDs, hd, hf] at hm; exact absurd hm (by simp)
      | some m =>
        obtain ⟨p', h', b', r'⟩ := m
        rw [findDs, hd, hf] at hm
        simp only [Option.some.injEq, Prod.mk.injEq] at hm
        obtain ⟨rfl, rfl, rfl, rfl⟩ := hm
        obtain ⟨hdec, hds, hsuf⟩ := ih hf
        refine ⟨by simp [hdec], hds, ?_⟩
        intro p1 p2 hp hne
        cases p1 with
        | nil =>
          simp only [List.nil_append] at hp
          rw [← hp, List.cons_append, ← hdec]
          exact hd
        | cons d p1' =>
          simp only [List.cons_append, List.cons.injEq] at hp
          exact hsuf p1' p2 hp.2 hne

theorem findDs_complete :
    ∀ (p : List Char) {h b r : List Char},
      dsMatchAt (h ++ (b ++ '}' :: r)) = some (h, b, r) →
      (∀ p1 p2, p = p1 ++ p2 → p2 ≠ [] →
        dsMatchAt (p2 ++ (h ++ (b ++ '}' :: r))) = none) →
      findDs (p ++ (h ++ (b ++ '}' :: r))) = some (p, h, b, r) := by
  intro p
  induction p with
  | nil =>
    intro h b r hds _
    cases hcase : h ++ (b ++ '}' :: r) with
    | nil =>
      rw [hcase] at hds
      have hnone : dsMatchAt [] = none := by decide
      rw [hnone] at hds
      exact absurd hds (by simp)
    | cons c cs =>
      have hds' : dsMatchAt (c :: cs) = some (h, b, r) := by rw [← hcase]; exact hds
      rw [List.nil_append]
      simp [findDs, hds']
  | cons a p' ih =>
    intro h b r hds hsuf
    have hnone : dsMatchAt (a :: (p' ++ (h ++ (b ++ '}' :: r)))) = none := by
      have := hsuf [] (a :: p') rfl (by simp)
      simpa using this
    rw [List.cons_append, findDs, hnone,
      ih hds fun p1 p2 hp hne => hsuf (a :: p1) p2 (by simp [hp]) hne]

/-! ### Facts about `hasUrl` -/

/-- Any text of the form `x ++ " url =" ++ s` (with the space before `url`)
matches `\burl\s*=`, whatever precedes. -/
theorem hasUrlAux_space_url :
    ∀ (x : List Char) (prev : Option Char) (s : List Char),
      hasUrlAux prev (x ++ ' ' :: 'u' :: 'r' :: 'l' :: ' ' :: '=' :: s) = true := by
  intro x
  induction x with
  | nil =>
    intro prev s
    rw [List.nil_append, hasUrlAux]
    have hr : hasUrlAux (some ' ') ('u' :: 'r' :: 'l' :: ' ' :: '=' :: s) = true := by
      rw [hasUrlAux]
      have hu : urlAt ('u' :: 'r' :: 'l' :: ' ' :: '=' :: s) = true := by
        rw [urlAt]
        rw [List.dropWhile_cons_of_pos (by decide), List.dropWhile_cons_of_neg (by decide)]
        rfl
      rw [hu]
      simp [boundaryOK, isWordC]
    rw [hr]
    simp
  | cons c x' ih =>
    intro prev s
    rw [List.cons_append, hasUrlAux, ih (some c) s]
    simp

/-- Any body containing `url`, optional whitespace and `=`, with no word
character immediately before the `url`, matches `\burl\s*=`. -/
theorem hasUrlAux_of_parts :
    ∀ (x : List Char) (prev : Option Char) (m y : List Char),
      (∀ c ∈ m, isSpaceC c = true) →
      (∀ c, x.getLast? = some c → isWordC c = false) →
      (x = [] → boundaryOK prev = true) →
      hasUrlAux prev (x ++ 'u' :: 'r' :: 'l' :: (m ++ '=' :: y)) = true := by
  intro x
  induction x with
  | nil =>
    intro prev m y hm _ hb
    rw [List.nil_append, hasUrlAux]
    have hu : urlAt ('u' :: 'r' :: 'l' :: (m ++ '=' :: y)) = true := by
      rw [urlAt, dropWhile_append_all _ hm, List.dropWhile_cons_of_neg (by decide)]
      rfl
    rw [hu, hb rfl]
    rfl
  | cons c x' ih =>
    intro prev m y hm hx hb
    have hx' : ∀ c', x'.getLast? = some c' → isWordC c' = false := by
      intro c' hc'
      apply hx
      cases x' with
      | nil => simp at hc'
      | cons d x'' => rw [List.getLast?_cons_cons]; exact hc'
    have hb' : x' = [] → boundaryOK (some c) = true := by
      intro he
      subst he
      have hc : isWordC c = false := hx c (by simp)
      simp [boundaryOK, hc]
    rw [List.cons_append, hasUrlAux, ih (some c) m y hm hx' hb']
    simp

/-- The injected line itself matches `\burl\s*=` inside any larger body. -/
theorem hasUrl_injected (b : List Char) : hasUrl (injectedLine ++ b) = true := by
  have h1 : injectedLine =
      ['\n', ' '] ++ (' ' :: 'u' :: 'r' :: 'l' :: ' ' :: '=' :: " env(\"DB_URL\")".data) := by
    decide
  have h2 : (' ' :: 'u' :: 'r' :: 'l' :: ' ' :: '=' :: " env(\"DB_URL\")".data) ++ b =
      ' ' :: 'u' :: 'r' :: 'l' :: ' ' :: '=' :: (" env(\"DB_URL\")".data ++ b) := by
    simp
  rw [hasUrl, h1, List.append_assoc, h2]
  exact hasUrlAux_space_url ['\n', ' '] none _

/-! ### Claims about the patching step -/

/-- C1: on the concrete document `datasource db \x7b\n  provider =
"postgresql"\n\x7d\n`, the patching step produces exactly the document with
the fixed url line inserted at the start of the block body, immediately after
the opening brace. -/
theorem evaluate_concrete_postgresql :
    evaluate "datasource db \x7b\n  provider = \"postgresql\"\n\x7d\n".data =
      some "datasource db \x7b\n  url = env(\"DB_URL\")\n  provider = \"postgresql\"\n\x7d\n".data := by
  decide

/-- C2: when the document's (first) datasource block has a body with no match
of `\burl\s*=`, the patched document is exactly the bytes before the body,
then the injected line, then the original body and tail — so its length
exceeds the original's by exactly the injected line's length and every
original byte is preserved in relative order. -/
theorem evaluate_patch_shape (doc p h b r : List Char)
    (hf : findDs doc = some (p, h, b, r)) (hu : hasUrl b = false) :
    doc = (p ++ h) ++ (b ++ '}' :: r) ∧
    evaluate doc = some ((p ++ h) ++ (injectedLine ++ (b ++ '}' :: r))) ∧
    ((p ++ h) ++ (injectedLine ++ (b ++ '}' :: r))).length =
      doc.length + injectedLine.length := by
  obtain ⟨hdec, _, _⟩ := findDs_sound hf
  refine ⟨by rw [hdec]; simp [List.append_assoc], ?_, ?_⟩
  · simp [evaluate, hf, hu, List.append_assoc]
  · rw [hdec]
    simp [List.length_append]
    omega

theorem evaluate_patch_shape_witness :
    evaluate "datasource db \x7b\n  provider = \"postgresql\"\n\x7d\n".data =
      some ("datasource db \x7b".data ++
        (injectedLine ++ ("\n  provider = \"postgresql\"\n".data ++ '}' :: "\n".data))) :=
  (evaluate_patch_shape _ [] "datasource db \x7b".data
    "\n  provider = \"postgresql\"\n".data "\n".data (by decide) (by decide)).2.1

/-- C3: patching is idempotent — re-evaluating a patched document always
yields "unchanged", so the url line is never injected twice. -/
theorem evaluate_idempotent (doc out : List Char) (he : evaluate doc = some out) :
    evaluate out = none := by
  cases hf : findDs doc with
  | none => simp [evaluate, hf] at he
  | some q =>
    obtain ⟨p, h, b, r⟩ := q
    simp only [evaluate, hf] at he
    cases hu : hasUrl b with
    | true => rw [hu] at he; exact absurd he (by simp)
    | false =>
      rw [hu] at he
      simp only [Bool.false_eq_true, if_false, Option.some.injEq] at he
      subst he
      obtain ⟨hdec, hds, hsuf⟩ := findDs_sound hf
      obtain ⟨s1, w, s2, hsh, hh, hl⟩ := dsMatchAt_sound hds
      obtain ⟨hs1ne, hs1all, hwne, hwall, hs2ne, hs2all, hbne, hball⟩ := hsh
      have hinjne : injectedLine ≠ [] := by decide
      have hshape' : Shape s1 w s2 (injectedLine ++ b) := by
        refine ⟨hs1ne, hs1all, hwne, hwall, hs2ne, hs2all, ?_, ?_⟩
        · intro hc
          exact hinjne (List.append_eq_nil.mp hc).1
        · intro c hc
          rcases List.mem_append.mp hc with hm1 | hm2
          · exact injectedLine_no_rbrace _ hm1
          · exact hball _ hm2
      have hds2 : dsMatchAt (h ++ ((injectedLine ++ b) ++ '}' :: r)) =
          some (h, injectedLine ++ b, r) := by
        have hcal := dsMatchAt_complete r hshape'
        have heq : h ++ ((injectedLine ++ b) ++ '}' :: r) =
            kw ++ (s1 ++ (w ++ (s2 ++ ('{' :: ((injectedLine ++ b) ++ '}' :: r))))) := by
          rw [hh]
          simp [List.append_assoc]
        rw [heq, hcal, hh]
      have hsuf2 : ∀ p1 p2, p = p1 ++ p2 → p2 ≠ [] →
          dsMatchAt (p2 ++ (h ++ ((injectedLine ++ b) ++ '}' :: r))) = none := by
        intro p1 p2 hp hne
        cases hcontr : dsMatchAt (p2 ++ (h ++ ((injectedLine ++ b) ++ '}' :: r))) with
        | none => rfl
        | some m =>
          exfalso
          obtain ⟨h2, b2, r2⟩ := m
          obtain ⟨s1', w', s2', hsh', _, hl'⟩ := dsMatchAt_sound hcontr
          have hM : Matches (p2 ++ (h ++ ((injectedLine ++ b) ++ '}' :: r))) :=
            ⟨s1', w', s2', b2, r2, hsh', hl'⟩
          have hre : p2 ++ (h ++ ((injectedLine ++ b) ++ '}' :: r)) =
              (p2 ++ (kw ++ s1 ++ w ++ s2)) ++ '{' :: (injectedLine ++ (b ++ '}' :: r)) := by
            rw [hh]
            simp [List.append_assoc]
          rw [hre] at hM
          have hM2 := matches_shrink _ b r hbne hball hM
          obtain ⟨sa, wa, sb, ba, ra, hsha, hla⟩ := hM2
          have hsome := dsMatchAt_complete ra hsha
          have hnone := hsuf p1 p2 hp hne
          have hre2 : p2 ++ (h ++ (b ++ '}' :: r)) =
              (p2 ++ (kw ++ s1 ++ w ++ s2)) ++ '{' :: (b ++ '}' :: r) := by
            rw [hh]
            simp [List.append_assoc]
          rw [hre2, hla, hsome] at hnone
          exact absurd hnone (by simp)
      have hfind : findDs (p ++ (h ++ ((injectedLine ++ b) ++ '}' :: r))) =
          some (p, h, injectedLine ++ b, r) := findDs_complete p hds2 hsuf2
      have hout : p ++ h ++ (injectedLine ++ (b ++ '}' :: r)) =
          p ++ (h ++ ((injectedLine ++ b) ++ '}' :: r)) := by
        simp [List.append_assoc]
      rw [hout]
      simp only [evaluate]
      rw [hfind]
      simp [hasUrl_injected]

theorem evaluate_idempotent_witness :
    evaluate "datasource db \x7b\n  url = env(\"DB_URL\")\n  provider = \"postgresql\"\n\x7d\n".data =
      none :=
  evaluate_idempotent "datasource db \x7b\n  provider = \"postgresql\"\n\x7d\n".data _
    (by decide)

/-- C4: if the first datasource block's body already contains `url`, optional
whitespace and `=`, with a word boundary on the left of `url`, the document
is left unchanged. -/
theorem evaluate_unchanged_of_url_present
    (doc p h x m y r : List Char)
    (hf : findDs doc = some (p, h, x ++ 'u' :: 'r' :: 'l' :: (m ++ '=' :: y), r))
    (hm : ∀ c ∈ m, isSpaceC c = true)
    (hx : x.getLast?.all (fun c => !(isWordC c)) = true) :
    evaluate doc = none := by
  have hx' : ∀ c, x.getLast? = some c → isWordC c = false := by
    intro c hc
    rw [hc] at hx
    simpa using hx
  have hu : hasUrl (x ++ 'u' :: 'r' :: 'l' :: (m ++ '=' :: y)) = true :=
    hasUrlAux_of_parts x none m y hm hx' (fun _ => rfl)
  simp [evaluate, hf, hu]

theorem evaluate_unchanged_of_url_present_witness :
    evaluate "datasource db \x7b\n  url = env(\"DB_URL\")\n\x7d\n".data = none :=
  evaluate_unchanged_of_url_present _ [] "datasource db \x7b".data
    ['\n', ' ', ' '] [' '] " env(\"DB_URL\")\n".data "\n".data
    (by decide) (by decide) (by decide)

/-- C10: the url-presence check is a raw pattern match that does not
distinguish comments — a body containing `// url = env("X")` anywhere makes
the document count as already having a url, so it is left unchanged. -/
theorem evaluate_unchanged_of_commented_url
    (doc p h b1 b2 r : List Char)
    (hf : findDs doc = some (p, h,
      b1 ++ ('/' :: '/' :: ' ' :: 'u' :: 'r' :: 'l' :: ' ' :: '=' :: " env(\"X\")".data) ++ b2,
      r)) :
    evaluate doc = none := by
  have hb : b1 ++ ('/' :: '/' :: ' ' :: 'u' :: 'r' :: 'l' :: ' ' :: '=' :: " env(\"X\")".data) ++ b2 =
      (b1 ++ ['/', '/']) ++ (' ' :: 'u' :: 'r' :: 'l' :: ' ' :: '=' :: (" env(\"X\")".data ++ b2)) := by
    simp
  have hu : hasUrl (b1 ++ ('/' :: '/' :: ' ' :: 'u' :: 'r' :: 'l' :: ' ' :: '=' :: " env(\"X\")".data) ++ b2) = true := by
    rw [hasUrl, hb]
    exact hasUrlAux_space_url _ none _
  simp only [evaluate, hf]
  rw [hu]
  simp

theorem evaluate_unchanged_of_commented_url_witness :
    evaluate "datasource db \x7b\n  // url = env(\"X\")\n\x7d\n".data = none :=
  evaluate_unchanged_of_commented_url _ [] "datasource db \x7b".data
    ['\n', ' ', ' '] ['\n'] "\n".data (by decide)

/-! ### Argument scanning and rewriting (`findSchemaPath` and the
rewrite loop of `shimSchemaCompatibility`) -/

theorem rewriteArgs_cons_skip {x : String} (z : String) (zs : List String) (t : String)
    (h1 : x ≠ "--schema") (h2 : "--schema=".data.isPrefixOf x.data = false) :
    rewriteArgs (x :: z :: zs) t = x :: rewriteArgs (z :: zs) t := by
  simp [rewriteArgs, h1, h2]

theorem rewriteArgs_append_skip :
    ∀ (l : List String) {suffix : List String} (t : String),
      (∀ a ∈ l, a ≠ "--schema" ∧ "--schema=".data.isPrefixOf a.data = false) → suffix ≠ [] →
      rewriteArgs (l ++ suffix) t = l ++ rewriteArgs suffix t := by
  intro l
  induction l with
  | nil => intro suffix t _ _; simp
  | cons x l' ih =>
    intro suffix t hcl hne
    obtain ⟨h1, h2⟩ := hcl x (by simp)
    have hcl' : ∀ a ∈ l', a ≠ "--schema" ∧ "--schema=".data.isPrefixOf a.data = false :=
      fun a ha => hcl a (by simp [ha])
    cases hcase : l' ++ suffix with
    | nil => exact absurd (List.append_eq_nil.mp hcase).2 hne
    | cons z zs =>
      rw [List.cons_append, hcase, rewriteArgs_cons_skip z zs t h1 h2, ← hcase,
        ih t hcl' hne, List.cons_append]

/-- C5: rewriting the argument list replaces the first schema flag's value in
place (both `--schema value` and `--schema=value` encodings), leaving every
other token at its position, and appends a new `--schema path` pair when no
schema flag is present. -/
theorem rewriteArgs_spec :
    (∀ (l : List String) (v : String) (r : List String) (t : String),
      (∀ a ∈ l, a ≠ "--schema" ∧ "--schema=".data.isPrefixOf a.data = false) →
      rewriteArgs (l ++ "--schema" :: v :: r) t = l ++ "--schema" :: t :: r) ∧
    (∀ (l : List String) (a : String) (r : List String) (t : String),
      (∀ x ∈ l, x ≠ "--schema" ∧ "--schema=".data.isPrefixOf x.data = false) →
      "--schema=".data.isPrefixOf a.data = true →
      rewriteArgs (l ++ a :: r) t = l ++ ("--schema=" ++ t) :: r) ∧
    (∀ (args : List String) (t : String),
      (∀ a ∈ args, "--schema=".data.isPrefixOf a.data = false) →
      (∀ l1 l2, args = l1 ++ "--schema" :: l2 → l2 = []) →
      rewriteArgs args t = args ++ ["--schema", t]) := by
  refine ⟨?_, ?_, ?_⟩
  · intro l v r t hcl
    rw [rewriteArgs_append_skip l t hcl (by simp)]
    simp [rewriteArgs]
  · intro l a r t hcl hpre
    rw [rewriteArgs_append_skip l t hcl (by simp)]
    have hane : a ≠ "--schema" := by
      intro he
      rw [he] at hpre
      exact absurd hpre (by decide)

    cases r with
    | nil => simp [rewriteArgs, hpre]
    | cons v r' => simp [rewriteArgs, hane, hpre]
  · intro args t
    induction args with
    | nil => intro _ _; simp [rewriteArgs]
    | cons a rest ih =>
      intro hall hnosplit
      have hpa : "--schema=".data.isPrefixOf a.data = false := hall a (by simp)
      cases rest with
      | nil =>
        simp only [rewriteArgs, hpa]
        simp
      | cons v rest' =>
        have hane : a ≠ "--schema" := by
          intro he
          have := hnosplit [] (v :: rest') (by simp [he])
          simp at this
        rw [rewriteArgs_cons_skip v rest' t hane hpa,
          ih (fun x hx => hall x (by simp [hx]))
            (fun l1 l2 hl => hnosplit (a :: l1) l2 (by simp [hl]))]
        simp

theorem rewriteArgs_spec_witness :
    rewriteArgs ["migrate", "dev", "--schema=a.prisma"] "tmp0.prisma" =
      ["migrate", "dev", "--schema=tmp0.prisma"] := by
  have h := rewriteArgs_spec.2.1 ["migrate", "dev"] "--schema=a.prisma" [] "tmp0.prisma"
    (by decide) (by decide)
  exact h.trans rfl

/-! ### Environment composition in `Run` -/

theorem foldl_append_singleton {α β : Type} (f : α → β) :
    ∀ (es : List α) (acc : List β),
      es.foldl (fun a e => a ++ [f e]) acc = acc ++ es.map f := by
  intro es
  induction es with
  | nil => intro acc; simp
  | cons e es ih =>
    intro acc
    rw [List.foldl_cons, ih, List.map_cons]
    simp

/-- C6: the composed child environment is exactly the ambient environment,
then the two fixed policy entries, then one entry per engine descriptor in
order — the ambient value verbatim when set and non-empty, otherwise the
computed cache path — appended last so they are the effective values. -/
theorem composeEnv_spec (environ : List String) (getEnv : String → String)
    (engines : List Engine) (dir version binaryName : String) :
    composeEnv environ getEnv engines dir version binaryName =
      environ ++ ["PRISMA_HIDE_UPDATE_MESSAGE=true", "PRISMA_CLI_QUERY_ENGINE_TYPE=binary"] ++
        engines.map (fun e => e.env ++ "=" ++
          (if getEnv e.env ≠ "" then getEnv e.env
           else dir ++ "/" ++ version ++ "/" ++ ("prisma-" ++ e.name ++ "-" ++ binaryName))) := by
  rw [composeEnv, foldl_append_singleton]
  simp [engineValue, List.append_assoc]

/-! ### File-system model of `shimSchemaCompatibility` and `Run`

The world is a map from paths to optional file contents.  The fallible
external steps are explicit parameters: `statOk` (does a default path pass
`os.Stat`), `createOk` / `writeOk` (temp-file creation and write),
`fetchOk` (binary fetch) and `execOk` (child-process exit).  `tmpName` is
the unique name handed out by `os.CreateTemp`. -/

/-- C7: when the located schema file cannot be read, shimming is a no-op:
no error, no temporary file, and the original argument list is kept. -/
theorem shim_read_degrades (w : String → Option (List Char)) (statOk : String → Bool)
    (args : List String) (tmpName : String) (createOk writeOk : Bool) (p : String)
    (hloc : locateSchema statOk args = some p) (hread : w p = none) :
    shimSchemaCompatibility w statOk args tmpName createOk writeOk =
      (w, args, none, false) := by
  simp [shimSchemaCompatibility, shimDecide, hloc, hread]

theorem shim_read_degrades_witness :
    shimSchemaCompatibility (fun _ => none) (fun _ => false)
      ["--schema", "a.prisma"] "tmp0" true true =
      ((fun _ => none), ["--schema", "a.prisma"], none, false) :=
  shim_read_degrades _ _ _ _ _ _ "a.prisma" rfl rfl

/-- C8: whenever a temporary schema file is materialized its disposer runs on
every exit path of `Run`, and a failed write removes the partial file before
the error is returned — so after `Run` the temporary file never exists. -/
theorem run_no_temp_after (w : String → Option (List Char)) (statOk : String → Bool)
    (args : List String) (tmpName : String) (createOk writeOk fetchOk execOk : Bool)
    (hfresh : w tmpName = none) :
    (Run w statOk args tmpName createOk writeOk fetchOk execOk).1 tmpName = none := by
  cases hsd : shimDecide w statOk args with
  | none =>
    cases fetchOk <;> simp [Run, shimSchemaCompatibility, hsd, hfresh]
  | some d =>
    cases fetchOk <;> cases createOk <;> cases writeOk <;>
      simp [Run, shimSchemaCompatibility, hsd, setFile, hfresh]

theorem run_no_temp_after_witness :
    (Run sampleWorld (fun _ => false) ["--schema", "a.prisma"] "tmp0"
      true true true true).1 "tmp0" = none :=
  run_no_temp_after _ _ _ _ _ _ _ _ (by decide)

/-- C9: `Run` never mutates any file other than the temporary one — in
particular the located schema file keeps its original bytes — and since the
temporary file is fresh and removed again, the final world equals the
initial one at every path. -/
theorem run_preserves_files (w : String → Option (List Char)) (statOk : String → Bool)
    (args : List String) (tmpName : String) (createOk writeOk fetchOk execOk : Bool)
    (hfresh : w tmpName = none) :
    (∀ q, q ≠ tmpName →
      (shimSchemaCompatibility w statOk args tmpName createOk writeOk).1 q = w q) ∧
    (∀ q, (Run w statOk args tmpName createOk writeOk fetchOk execOk).1 q = w q) := by
  constructor
  · intro q hq
    cases hsd : shimDecide w statOk args with
    | none => simp [shimSchemaCompatibility, hsd]
    | some d =>
      cases createOk <;> cases writeOk <;>
        simp [shimSchemaCompatibility, hsd, setFile, hq]
  · intro q
    by_cases hq : q = tmpName
    · subst hq
      cases hsd : shimDecide w statOk args with
      | none =>
        cases fetchOk <;> simp [Run, shimSchemaCompatibility, hsd, hfresh]
      | some d =>
        cases fetchOk <;> cases createOk <;> cases writeOk <;>
          simp [Run, shimSchemaCompatibility, hsd, setFile, hfresh]
    · cases hsd : shimDecide w statOk args with
      | none =>
        cases fetchOk <;> simp [Run, shimSchemaCompatibility, hsd]
      | some d =>
        cases fetchOk <;> cases createOk <;> cases writeOk <;>
          simp [Run, shimSchemaCompatibility, hsd, setFile, hq]

theorem run_preserves_files_witness :
    (Run sampleWorld (fun _ => false) ["--schema", "a.prisma"] "tmp0"
      true true true true).1 "a.prisma" =
      some "datasource db \x7b\n  provider = \"postgresql\"\n\x7d\n".data :=
  ((run_preserves_files _ _ _ _ _ _ _ _ (by decide)).2 "a.prisma").trans rfl

end PrismaCli
